import Mathlib

/-!
Verification of the m4b-audiobook-builder scripts.

Shallow embedding of the core algorithms of
src/m4b-audiobook-builder/scripts/propose_m4b_order.py,
src/m4b-audiobook-builder/scripts/build_m4b_inputs.py and
src/m4b-audiobook-builder/scripts/cover_art.py.

Modelling conventions:
  - File paths are modelled as the string of the path relative to the scan
    root (propose_m4b_order) or as the list of path components relative to
    the root (build_m4b_inputs); the scan root itself is implicit.  For the
    concat-list writer, paths are modelled as already-resolved absolute
    strings, so Path.resolve is the identity.
  - Python dictionaries of probed metadata are modelled as total functions
    from path to record; a missing dictionary entry is the all-absent
    record, exactly as metadata.get(path, {}) behaves.
  - Python tag values (JSON values returned by exiftool/ffprobe) are the
    inductive TagVal below: absent (None), integer, float (as a rational
    with int() truncating toward zero) or string.
  - Python string lowercasing and the regex digit class are modelled on
    ASCII (Char.toLower / Char.isDigit); every property proved here is
    insensitive to that restriction.
  - Python list.sort / sorted is a stable sort by key; it is modelled with
    List.insertionSort on the non-strict key order, which is stable.
-/

/-- Three-way comparison induced by a linear order, as Python comparisons
of two ints, two chars or two strings behave. -/
def cmpLin {α : Type} [LinearOrder α] (a b : α) : Ordering :=
  if a < b then .lt else if a = b then .eq else .gt

/-- Lexicographic comparison of two lists given an element comparison:
Python list comparison. -/
def listCmp {α : Type} (c : α → α → Ordering) : List α → List α → Ordering
  | [], [] => .eq
  | [], _ :: _ => .lt
  | _ :: _, [] => .gt
  | a :: as, b :: bs => ((c a b).then (listCmp c as bs))

/-! ## natural_key (propose_m4b_order.py lines 27-28, build_m4b_inputs.py lines 22-23)

    def natural_key(text):
        return [int(part) if part.isdigit() else part.lower()
                for part in re.split(r"(\d+)", text)]
-/
/-- One element of a Python natural-sort key list: either an int (from a
digit run) or a lowercased string segment. -/
inductive KElem : Type
  | kint : ℕ → KElem
  | kstr : List Char → KElem
deriving DecidableEq

/-- Value of a run of decimal digits, as Python int() of a digit string. -/
def digitsToNat (cs : List Char) : ℕ :=
  cs.foldl (fun n c => 10 * n + (c.toNat - 48)) 0

/-- State machine computing re.split with the capture group (\d+): the
result alternates (possibly empty) non-digit segments with (non-empty)
digit segments, starting and ending with a non-digit segment.  The first
accumulator is the current segment reversed; the flag records whether the
current segment is a digit run. -/
def sdAux : List Char → List Char → Bool → List (List Char)
  | [], acc, inD => if inD then [acc.reverse, []] else [acc.reverse]
  | c :: cs, acc, inD =>
    if c.isDigit then
      if inD then sdAux cs (c :: acc) true
      else acc.reverse :: sdAux cs [c] true
    else
      if inD then acc.reverse :: sdAux cs [c] false
      else sdAux cs (c :: acc) false

/-- re.split (with the digit-run capture group) on a character list. -/
def splitRuns (cs : List Char) : List (List Char) :=
  sdAux cs [] false

/-- Python str.isdigit: non-empty and all digits. -/
def pyIsDigit (cs : List Char) : Bool :=
  (!cs.isEmpty) && cs.all Char.isDigit

/-- One list comprehension element of natural_key. -/
def toKElem (part : List Char) : KElem :=
  if pyIsDigit part then .kint (digitsToNat part) else .kstr (part.map Char.toLower)

/-- natural_key from propose_m4b_order.py / build_m4b_inputs.py. -/
def natural_key (s : String) : List KElem :=
  (splitRuns s.toList).map toKElem

/-- Comparison of two natural-key elements.  When two keys produced by
natural_key are compared positionwise the two elements always have the
same constructor (segments alternate, starting with a string segment), so
the value of the mixed cases never influences a comparison of two
natural keys; they are fixed to int-before-string to make the comparison
total. -/
def kcmp : KElem → KElem → Ordering
  | .kint m, .kint n => cmpLin m n
  | .kstr s, .kstr t => listCmp cmpLin s t
  | .kint _, .kstr _ => .lt
  | .kstr _, .kint _ => .gt

/-- Comparison of two strings by their natural keys: the order every sort
in propose_m4b_order.py and build_m4b_inputs.py uses on relative paths. -/
def natCmp (s t : String) : Ordering :=
  listCmp kcmp (natural_key s) (natural_key t)

/-! ## natural_key as it appears in cover_art.py lines 37-38

    def natural_key(text):
        return [int(part) if part.isdigit() else part.lower()
                for part in re.split(r"(\\d+)", text)]

The raw-string pattern (\\d+) is the regex \\d+ which matches a literal
backslash followed by one or more letters d, not a digit run. -/
/-- Scanner state for the cover_art.py split: scanning normal text,
having just seen a backslash, or inside a matched backslash-d run. -/
inductive CAState : Type
  | n : CAState
  | s : CAState
  | d : CAState

/-- The backslash character. -/
def bslash : Char := Char.ofNat 92

/-- State machine computing re.split with the capture group (\\d+), i.e.
splitting on runs of one backslash followed by one or more d characters.
text is the current uncaptured segment reversed; m is the current match
reversed. -/
def caAux : List Char → List Char → List Char → CAState → List (List Char)
  | [], text, _, .n => [text.reverse]
  | [], text, _, .s => [(bslash :: text).reverse]
  | [], text, m, .d => [text.reverse, m.reverse, []]
  | c :: cs, text, m, st =>
    match st with
    | .n =>
      if c = bslash then caAux cs text [] .s
      else caAux cs (c :: text) [] .n
    | .s =>
      if c = 'd' then caAux cs text [c, bslash] .d
      else if c = bslash then caAux cs (bslash :: text) [] .s
      else caAux cs (c :: bslash :: text) [] .n
    | .d =>
      if c = 'd' then caAux cs text (c :: m) .d
      else if c = bslash then text.reverse :: m.reverse :: caAux cs [] [] .s
      else text.reverse :: m.reverse :: caAux cs [c] [] .n

/-- natural_key from cover_art.py (with the escaped pattern as written). -/
def coverArtNaturalKey (s : String) : List KElem :=
  (caAux s.toList [] [] .n).map toKElem

/-- Comparison of two strings by cover_art.py natural keys. -/
def coverArtNatCmp (s t : String) : Ordering :=
  listCmp kcmp (coverArtNaturalKey s) (coverArtNaturalKey t)

/-! ## parse_index (propose_m4b_order.py lines 31-40)

    def parse_index(value):
        if value is None: return None
        if isinstance(value, (int, float)): return int(value)
        text = str(value)
        match = re.search(r"\d+", text)
        if not match: return None
        return int(match.group(0))
-/
/-- A probed tag value: absent, an integer, a float (kept as a rational)
or a string. -/
inductive TagVal : Type
  | vNone : TagVal
  | vInt : ℤ → TagVal
  | vFloat : ℚ → TagVal
  | vStr : String → TagVal
deriving DecidableEq

/-- Python int() on a float: truncation toward zero. -/
def pyTrunc (q : ℚ) : ℤ :=
  if q < 0 then -((-q).floor) else q.floor

/-- Value of the leftmost maximal digit run in a character list, if any:
re.search of one or more digits followed by int() of the match. -/
def firstDigitRun : List Char → Option ℕ
  | [] => none
  | c :: cs =>
    if c.isDigit then some (digitsToNat (c :: cs.takeWhile Char.isDigit))
    else firstDigitRun cs

/-- parse_index from propose_m4b_order.py. -/
def parse_index : TagVal → Option ℤ
  | .vNone => none
  | .vInt n => some n
  | .vFloat q => some (pyTrunc q)
  | .vStr s => (firstDigitRun s.toList).map (fun n => (n : ℤ))

/-- The expression parse_index(...) or 1 from compute_order line 150: any
falsy value (None from a failed parse, or the integer 0) becomes 1. -/
def pyOr1 : Option ℤ → ℤ
  | none => 1
  | some n => if n = 0 then 1 else n

/-- Python truthiness of a tag value, as used by the expressions
if value: in metadata_score and has_embedded_cover. -/
def truthy : TagVal → Bool
  | .vNone => false
  | .vInt n => n ≠ 0
  | .vFloat q => q ≠ 0
  | .vStr s => s ≠ ""

/-- The probed metadata record of one file: the tag keys that
propose_m4b_order.py reads from its metadata mapping.  A file that is
absent from the mapping is modelled by the all-vNone record, exactly as
metadata.get(path, \x7b\x7d) yields an empty dictionary. -/
structure MRecord : Type where
  track : TagVal
  disk : TagVal
  title : TagVal
  album : TagVal
  artist : TagVal
  albumArtist : TagVal
  coverArt : TagVal
  picture : TagVal
  apic : TagVal
deriving DecidableEq

/-- The empty metadata record (file missing from the mapping). -/
def emptyRec : MRecord :=
  ⟨.vNone, .vNone, .vNone, .vNone, .vNone, .vNone, .vNone, .vNone, .vNone⟩

/-! ## compute_order (propose_m4b_order.py lines 138-171) -/
/-- Second sort-key component: the parsed track number, or the sentinel
10 to the 9th when the track number is missing or unparsable. -/
def trackKeyVal : Option ℤ → ℤ
  | some n => n
  | none => 10 ^ 9

/-- One entry of the list built by the first loop of compute_order:
(path, disc with default 1, optional track). -/
abbrev OEntry : Type := String × ℤ × Option ℤ

/-- The composite sort key of line 162-166: (disc, track or sentinel,
natural key of the relative path). -/
def entryKey (e : OEntry) : ℤ × ℤ × List KElem :=
  (e.2.1, trackKeyVal e.2.2, natural_key e.1)

/-- Lexicographic comparison of two composite sort keys, as Python
compares the key tuples. -/
def keyCmp3 (k1 k2 : ℤ × ℤ × List KElem) : Ordering :=
  ((cmpLin k1.1 k2.1).then (((cmpLin k1.2.1 k2.2.1).then (listCmp kcmp k1.2.2 k2.2.2))))

/-- The non-strict order two entries are sorted by: the key of the first
does not compare greater than the key of the second. -/
def entryLe (e1 e2 : OEntry) : Prop :=
  keyCmp3 (entryKey e1) (entryKey e2) ≠ .gt

instance : DecidableRel entryLe := fun a b => by
  unfold entryLe
  infer_instance

/-- Warning of compute_order line 159. -/
def missingWarning : String := "Some files are missing track numbers; ordering may be incomplete."

/-- Warning of compute_order line 170. -/
def noTrackWarning : String := "No track numbers detected; falling back to filename order."

/-- compute_order from propose_m4b_order.py lines 138-171.  Paths are the
strings of the paths relative to the root; the stable Python sort by key
is List.insertionSort on the non-strict key order. -/
def compute_order (files : List String) (md : String → MRecord) :
    List String × List String :=
  let entries : List OEntry :=
    files.map (fun p => (p, pyOr1 (parse_index (md p).disk), parse_index (md p).track))
  let hasTrack := entries.any (fun e => e.2.2.isSome)
  let missingTrack := entries.any (fun e => e.2.2.isNone)
  if hasTrack then
    ((List.insertionSort entryLe entries).map (fun e => e.1),
      if missingTrack then [missingWarning] else [])
  else
    (files, [noTrackWarning])

/-! ## metadata_score and choose_metadata_source (propose_m4b_order.py
lines 174-196) -/
/-- metadata_score: how many of Title, Album, Artist, AlbumArtist are
truthy (0 to 4).  The int type matches the Python int score. -/
def metadata_score (r : MRecord) : ℤ :=
  (((if truthy r.title then 1 else 0) + (if truthy r.album then 1 else 0)) +
    (if truthy r.artist then 1 else 0)) + (if truthy r.albumArtist then 1 else 0)

/-- The loop of choose_metadata_source: best path and best score so far,
replaced on every strict improvement. -/
def chooseLoop (md : String → MRecord) :
    List String → Option String → ℤ → Option String × ℤ
  | [], bp, bs => (bp, bs)
  | p :: rest, bp, bs =>
    if metadata_score (md p) > bs then chooseLoop md rest (some p) (metadata_score (md p))
    else chooseLoop md rest bp bs

/-- choose_metadata_source from propose_m4b_order.py lines 183-196. -/
def choose_metadata_source (ordered : List String) (md : String → MRecord) :
    Option String :=
  let r := chooseLoop md ordered none (-1)
  if r.2 ≤ 0 then none else r.1

/-! ## cover selection (propose_m4b_order.py lines 199-234) -/
/-- has_embedded_cover: any of the CoverArt, Picture, APIC tags truthy. -/
def has_embedded_cover (r : MRecord) : Bool :=
  truthy r.coverArt || truthy r.picture || truthy r.apic

/-- Base name of a relative path: the part after the last slash, as
Path.name. -/
def pName (rel : String) : String :=
  ((rel.toList.reverse.takeWhile (fun c => c ≠ '/')).reverse).asString

/-- Python str.lower (ASCII model). -/
def pyLower (s : String) : String :=
  (s.toList.map Char.toLower).asString

/-- The non-strict natural order on relative-path strings used by every
sort over natural_key. -/
def strNatLe (p q : String) : Prop :=
  natCmp p q ≠ .gt

instance : DecidableRel strNatLe := fun a b => by
  unfold strNatLe
  infer_instance

/-- find_sidecar from propose_m4b_order.py lines 207-216: among all
scanned files, those whose lowercased base name is a configured sidecar
name, naturally sorted by relative path; the first one, if any. -/
def find_sidecar (allFiles : List String) (names : List String) : Option String :=
  (List.insertionSort strNatLe
    (allFiles.filter (fun p => names.contains (pyLower (pName p))))).head?

/-- choose_cover_source from propose_m4b_order.py lines 219-234.
allFiles is the full scanned file set (any extension) used for the
sidecar search; ordered is the computed play order of the audio files. -/
def choose_cover_source (allFiles ordered : List String) (md : String → MRecord)
    (names : List String) : Option String :=
  match find_sidecar allFiles names with
  | some s => some (("sidecar:") ++ s)
  | none =>
    (ordered.find? (fun p => has_embedded_cover (md p))).map (fun p => ("embedded:") ++ p)

/-! ## write_concat_list (propose_m4b_order.py lines 290-297 and
build_m4b_inputs.py lines 37-45; the two copies are identical)

The writer first checks every path for a single quote and raises before
opening the output file; only when no path contains a quote does it open
the file and write one line per path.  The model returns the optional
error message together with the list of lines actually written. -/
/-- The single-quote character. -/
def squote : Char := Char.ofNat 39

/-- Whether a path string contains a single quote. -/
def hasQuote (p : String) : Bool :=
  p.toList.contains squote

/-- One concat-list line: file, space, quoted absolute path, newline. -/
def concatLine (p : String) : String :=
  ("file ") ++ String.singleton squote ++ p ++ String.singleton squote ++ ("\n")

/-- write_concat_list.  Paths are modelled as resolved absolute strings.
First component: the ValueError message, if raised; second component:
the lines written to the output file. -/
def write_concat_list (ordered : List String) : Option String × List String :=
  match ordered.find? hasQuote with
  | some p => (some (("file path contains a single quote: ") ++ p), [])
  | none => (none, ordered.map concatLine)

/-! ## build_m4b_inputs.py: chapter building (lines 48-115)

Files are modelled as their list of path components relative to the scan
root (last component = file name).  The external ffprobe call returns a
duration in seconds; probe_duration_ms converts it exactly as
int(round(seconds * 1000)) does, with round-half-to-even. -/
/-- A file under the root: its relative-path components. -/
abbrev BFile : Type := List String

/-- Python round on a rational: nearest integer, ties to even. -/
def pyRound (q : ℚ) : ℤ :=
  if q - (⌊q⌋ : ℚ) < 1 / 2 then ⌊q⌋
  else if 1 / 2 < q - (⌊q⌋ : ℚ) then ⌊q⌋ + 1
  else if ⌊q⌋ % 2 = 0 then ⌊q⌋ else ⌊q⌋ + 1

/-- probe_duration_ms from build_m4b_inputs.py lines 48-66, applied to the
probed duration in seconds. -/
def probe_duration_ms (seconds : ℚ) : ℤ :=
  pyRound (seconds * 1000)

/-- Index of the last dot in a character list, if any (str.rfind). -/
def rfindDot : List Char → Option ℕ
  | [] => none
  | c :: cs =>
    match rfindDot cs with
    | some i => some (i + 1)
    | none => if c = '.' then some 0 else none

/-- Path.stem of a file name: the name without its final extension; the
extension exists when the last dot is neither the first nor the last
character. -/
def pyStem (s : String) : String :=
  match rfindDot s.toList with
  | some i => if 0 < i ∧ i < s.toList.length - 1 then (s.toList.take i).asString else s
  | none => s

/-- chapter_title_from_dir from build_m4b_inputs.py lines 69-73: the
relative directory joined with slashes, with the root level mapped to the
root directory name, or Root when the root has no name. -/
def chapter_title_from_dir (f : BFile) (rootName : String) : String :=
  if f.dropLast = [] then (if rootName = "" then ("Root") else rootName)
  else String.intercalate ("/") f.dropLast

/-- The chapter-mode choice of build_m4b_inputs.py: dir, file or none. -/
inductive ChapterMode : Type
  | dirMode : ChapterMode
  | fileMode : ChapterMode
  | noneMode : ChapterMode
deriving DecidableEq

/-- The per-file loop of build_chapters lines 87-93: one chapter per
entry, spanning the cumulative interval, titled with the stem. -/
def fileLoop : List (BFile × ℤ) → ℤ → List (ℤ × ℤ × String)
  | [], _ => []
  | (f, d) :: rest, start =>
    (start, start + d, pyStem (f.getLastD (""))) :: fileLoop rest (start + d)

/-- The per-directory loop of build_chapters lines 95-107: collect the
chapter titles and start offsets, opening a chapter whenever the title
differs from the running key; returns (titles, starts, total). -/
def dirLoop (rootName : String) :
    List (BFile × ℤ) → Option String → ℤ → List String × List ℤ × ℤ
  | [], _, cum => ([], [], cum)
  | (f, d) :: rest, cur, cum =>
    let t := chapter_title_from_dir f rootName
    if some t = cur then dirLoop rootName rest cur (cum + d)
    else
      let r := dirLoop rootName rest (some t) (cum + d)
      (t :: r.1, cum :: r.2.1, r.2.2)

/-- The closing loop of build_chapters lines 110-113: each start paired
with the next start, the last with the total. -/
def pairChapters : List ℤ → List String → ℤ → List (ℤ × ℤ × String)
  | s1 :: s2 :: ss, t :: ts, total => (s1, s2, t) :: pairChapters (s2 :: ss) ts total
  | [s1], [t], total => [(s1, total, t)]
  | _, _, _ => []

/-- build_chapters from build_m4b_inputs.py lines 76-115.  dur is the
per-file probed duration in milliseconds (the list comprehension of line
84 zipped with the files). -/
def build_chapters (files : List BFile) (rootName : String) (mode : ChapterMode)
    (dur : BFile → ℤ) : List (ℤ × ℤ × String) :=
  match mode with
  | .noneMode => []
  | .fileMode => fileLoop (files.zip (files.map dur)) 0
  | .dirMode =>
    let r := dirLoop rootName (files.zip (files.map dur)) none 0
    pairChapters r.2.1 r.1 r.2.2

/-- The composite sort key of a path, recomputed from the metadata map:
(disc with falsy values defaulted to 1, track or sentinel, natural key of
the relative path). -/
def pathKey (md : String → MRecord) (p : String) : ℤ × ℤ × List KElem :=
  (pyOr1 (parse_index (md p).disk), trackKeyVal (parse_index (md p).track), natural_key p)

/-- The non-strict composite-key order on paths under a metadata map. -/
def pathLe (md : String → MRecord) (p q : String) : Prop :=
  keyCmp3 (pathKey md p) (pathKey md q) ≠ .gt

/-! ## Concrete catalogs and metadata maps used as test inputs -/

/-- Metadata of the spec scenario A(track=1), B(track=None), C(track=2). -/
def mdABC : String → MRecord := fun p =>
  if p = "A" then { emptyRec with track := .vInt 1 }
  else if p = "C" then { emptyRec with track := .vInt 2 }
  else emptyRec

/-- Metadata where file b carries a track number of 2000000000, at least
as large as the missing-track sentinel, and file a has no track. -/
def mdBig : String → MRecord := fun p =>
  if p = "b" then { emptyRec with track := .vInt 2000000000 } else emptyRec

/-- Metadata where file x has probed disc number 0 and track 2, and file
y has no disc number and track 1. -/
def mdC10 : String → MRecord := fun p =>
  if p = "x" then { emptyRec with disk := .vStr ("0"), track := .vInt 2 }
  else { emptyRec with track := .vInt 1 }

/-- Metadata giving tag-completeness scores e1 = 2, e2 = 4, e3 = 1. -/
def mdScores : String → MRecord := fun p =>
  if p = "e2" then
    ⟨.vNone, .vNone, .vStr ("t"), .vStr ("al"), .vStr ("ar"), .vStr ("aa"), .vNone, .vNone, .vNone⟩
  else if p = "e1" then { emptyRec with title := .vStr ("t"), album := .vStr ("al") }
  else if p = "e3" then { emptyRec with title := .vStr ("t") }
  else emptyRec

/-- Metadata where every file has an embedded cover (a truthy APIC tag). -/
def mdCoverAll : String → MRecord := fun _ =>
  { emptyRec with apic := .vStr ("img") }

/-! ## Lemmas about the comparators -/

theorem cmpLin_refl {α : Type} [LinearOrder α] (a : α) : cmpLin a a = .eq := by
  simp [cmpLin]

theorem cmpLin_eq {α : Type} [LinearOrder α] {a b : α} (h : cmpLin a b = .eq) : a = b := by
  unfold cmpLin at h
  split at h
  · exact absurd h (by simp)
  · split at h
    · assumption
    · exact absurd h (by simp)

theorem cmpLin_swap {α : Type} [LinearOrder α] (a b : α) : (cmpLin a b).swap = cmpLin b a := by
  unfold cmpLin
  rcases lt_trichotomy a b with h | h | h
  · rw [if_pos h, if_neg (not_lt_of_gt h), if_neg (Ne.symm (ne_of_lt h))]
    rfl
  · subst h
    simp [Ordering.swap]
  · rw [if_neg (not_lt_of_gt h), if_neg (ne_of_gt h), if_pos h]
    rfl

theorem cmpLin_trans {α : Type} [LinearOrder α] {a b c : α}
    (h1 : cmpLin a b = .lt) (h2 : cmpLin b c = .lt) : cmpLin a c = .lt := by
  have hab : a < b := by
    by_contra hc
    unfold cmpLin at h1
    rw [if_neg hc] at h1
    split at h1 <;> simp_all
  have hbc : b < c := by
    by_contra hc
    unfold cmpLin at h2
    rw [if_neg hc] at h2
    split at h2 <;> simp_all
  unfold cmpLin
  rw [if_pos (lt_trans hab hbc)]

theorem listCmp_refl {α : Type} {c : α → α → Ordering} (hrefl : ∀ a, c a a = .eq)
    (l : List α) : listCmp c l l = .eq := by
  induction l with
  | nil => rfl
  | cons a as ih => simp [listCmp, hrefl a, Ordering.then, ih]

theorem listCmp_eq {α : Type} {c : α → α → Ordering} (heq : ∀ a b, c a b = .eq → a = b) :
    ∀ {l1 l2 : List α}, listCmp c l1 l2 = .eq → l1 = l2
  | [], [], _ => rfl
  | [], _ :: _, h => by simp [listCmp] at h
  | _ :: _, [], h => by simp [listCmp] at h
  | a :: as, b :: bs, h => by
    simp only [listCmp] at h
    cases hab : c a b with
    | lt => rw [hab] at h; simp [Ordering.then] at h
    | gt => rw [hab] at h; simp [Ordering.then] at h
    | eq =>
      rw [hab] at h
      simp only [Ordering.then] at h
      rw [heq a b hab, listCmp_eq heq h]

theorem listCmp_swap {α : Type} {c : α → α → Ordering} (hswap : ∀ a b, (c a b).swap = c b a) :
    ∀ (l1 l2 : List α), (listCmp c l1 l2).swap = listCmp c l2 l1
  | [], [] => rfl
  | [], _ :: _ => rfl
  | _ :: _, [] => rfl
  | a :: as, b :: bs => by
    simp only [listCmp]
    cases hab : c a b with
    | lt =>
      have : c b a = .gt := by rw [← hswap a b, hab]; rfl
      simp [Ordering.then, Ordering.swap, this]
    | gt =>
      have : c b a = .lt := by rw [← hswap a b, hab]; rfl
      simp [Ordering.then, Ordering.swap, this]
    | eq =>
      have : c b a = .eq := by rw [← hswap a b, hab]; rfl
      simp only [Ordering.then, this]
      exact listCmp_swap hswap as bs

theorem listCmp_trans {α : Type} {c : α → α → Ordering}
    (heq : ∀ a b, c a b = .eq → a = b)
    (htrans : ∀ {a b d}, c a b = .lt → c b d = .lt → c a d = .lt) :
    ∀ {l1 l2 l3 : List α}, listCmp c l1 l2 = .lt → listCmp c l2 l3 = .lt →
      listCmp c l1 l3 = .lt
  | [], [], _, h1, _ => by simp [listCmp] at h1
  | [], _ :: _, [], _, h2 => by simp [listCmp] at h2
  | [], _ :: _, _ :: _, _, _ => rfl
  | _ :: _, [], _, h1, _ => by simp [listCmp] at h1
  | _ :: _, _ :: _, [], _, h2 => by simp [listCmp] at h2
  | a :: as, b :: bs, d :: ds, h1, h2 => by
    simp only [listCmp] at h1 h2 ⊢
    cases hab : c a b with
    | gt => rw [hab] at h1; simp [Ordering.then] at h1
    | lt =>
      cases hbd : c b d with
      | gt => rw [hbd] at h2; simp [Ordering.then] at h2
      | lt => simp [Ordering.then, htrans hab hbd]
      | eq => rw [← heq b d hbd]; simp [Ordering.then, hab]
    | eq =>
      rw [hab] at h1
      simp only [Ordering.then] at h1
      rw [heq a b hab]
      cases hbd : c b d with
      | gt => rw [hbd] at h2; simp [Ordering.then] at h2
      | lt => simp [Ordering.then, hbd]
      | eq =>
        rw [hbd] at h2
        simp only [Ordering.then] at h2
        simp [Ordering.then, hbd, listCmp_trans heq htrans h1 h2]

theorem kcmp_refl (a : KElem) : kcmp a a = .eq := by
  cases a with
  | kint n => simp [kcmp, cmpLin_refl]
  | kstr s => simp [kcmp, listCmp_refl cmpLin_refl]

theorem kcmp_eq : ∀ {a b : KElem}, kcmp a b = .eq → a = b
  | .kint _, .kint _, h => by rw [cmpLin_eq h]
  | .kstr _, .kstr _, h => by rw [listCmp_eq (fun a b => cmpLin_eq) h]
  | .kint _, .kstr _, h => by simp [kcmp] at h
  | .kstr _, .kint _, h => by simp [kcmp] at h

theorem kcmp_swap : ∀ (a b : KElem), (kcmp a b).swap = kcmp b a
  | .kint _, .kint _ => cmpLin_swap _ _
  | .kstr _, .kstr _ => listCmp_swap (fun a b => cmpLin_swap a b) _ _
  | .kint _, .kstr _ => rfl
  | .kstr _, .kint _ => rfl

theorem kcmp_trans : ∀ {a b c : KElem}, kcmp a b = .lt → kcmp b c = .lt → kcmp a c = .lt
  | .kint _, .kint _, .kint _, h1, h2 => cmpLin_trans h1 h2
  | .kint _, .kint _, .kstr _, _, _ => rfl
  | .kint _, .kstr _, .kint _, _, h2 => by simp [kcmp] at h2
  | .kint _, .kstr _, .kstr _, _, _ => rfl
  | .kstr _, .kint _, _, h1, _ => by simp [kcmp] at h1
  | .kstr _, .kstr _, .kint _, _, h2 => by simp [kcmp] at h2
  | .kstr _, .kstr _, .kstr _, h1, h2 =>
    listCmp_trans (fun a b => cmpLin_eq) (fun h1 h2 => cmpLin_trans h1 h2) h1 h2

theorem then_swap (o1 o2 : Ordering) : (o1.then o2).swap = o1.swap.then o2.swap := by
  cases o1 <;> cases o2 <;> rfl

theorem then_eq_iff {o1 o2 : Ordering} : o1.then o2 = .eq ↔ o1 = .eq ∧ o2 = .eq := by
  cases o1 <;> cases o2 <;> simp [Ordering.then]

theorem then_lt_iff {o1 o2 : Ordering} :
    o1.then o2 = .lt ↔ o1 = .lt ∨ (o1 = .eq ∧ o2 = .lt) := by
  cases o1 <;> cases o2 <;> simp [Ordering.then]

theorem keyCmp3_eq {k1 k2 : ℤ × ℤ × List KElem} (h : keyCmp3 k1 k2 = .eq) : k1 = k2 := by
  unfold keyCmp3 at h
  rw [then_eq_iff] at h
  obtain ⟨h1, h2⟩ := h
  rw [then_eq_iff] at h2
  obtain ⟨h2, h3⟩ := h2
  obtain ⟨a1, b1, c1⟩ := k1
  obtain ⟨a2, b2, c2⟩ := k2
  simp only at h1 h2 h3
  rw [cmpLin_eq h1, cmpLin_eq h2, listCmp_eq (fun a b => kcmp_eq) h3]

theorem keyCmp3_swap (k1 k2 : ℤ × ℤ × List KElem) : (keyCmp3 k1 k2).swap = keyCmp3 k2 k1 := by
  unfold keyCmp3
  rw [then_swap, then_swap, cmpLin_swap, cmpLin_swap, listCmp_swap (fun a b => kcmp_swap a b)]

theorem keyCmp3_trans {k1 k2 k3 : ℤ × ℤ × List KElem}
    (h1 : keyCmp3 k1 k2 = .lt) (h2 : keyCmp3 k2 k3 = .lt) : keyCmp3 k1 k3 = .lt := by
  unfold keyCmp3 at h1 h2 ⊢
  rw [then_lt_iff] at h1 h2 ⊢
  rcases h1 with h1 | ⟨h1e, h1r⟩
  · rcases h2 with h2 | ⟨h2e, h2r⟩
    · exact Or.inl (cmpLin_trans h1 h2)
    · rw [cmpLin_eq h2e] at h1
      exact Or.inl h1
  · rcases h2 with h2 | ⟨h2e, h2r⟩
    · rw [← cmpLin_eq h1e] at h2
      exact Or.inl h2
    · refine Or.inr ⟨by rw [cmpLin_eq h1e, h2e], ?_⟩
      rw [then_lt_iff] at h1r h2r ⊢
      rcases h1r with h1r | ⟨h1re, h1rr⟩
      · rcases h2r with h2r | ⟨h2re, h2rr⟩
        · exact Or.inl (cmpLin_trans h1r h2r)
        · rw [cmpLin_eq h2re] at h1r
          exact Or.inl h1r
      · rcases h2r with h2r | ⟨h2re, h2rr⟩
        · rw [← cmpLin_eq h1re] at h2r
          exact Or.inl h2r
        · refine Or.inr ⟨by rw [cmpLin_eq h1re, h2re], ?_⟩
          exact listCmp_trans (fun a b => kcmp_eq) (fun ha hb => kcmp_trans ha hb) h1rr h2rr

/-- Transitivity of a does-not-compare-greater relation derived from a
comparison with swap, transitivity and congruence-of-equality. -/
theorem cmpNeGt_trans {γ : Type} (c : γ → γ → Ordering)
    (hswap : ∀ a b, (c a b).swap = c b a)
    (htrans : ∀ {a b d}, c a b = .lt → c b d = .lt → c a d = .lt)
    (hcongr : ∀ {a b}, c a b = .eq → ∀ d, c a d = c b d)
    {a b d : γ} (h1 : c a b ≠ .gt) (h2 : c b d ≠ .gt) : c a d ≠ .gt := by
  cases cab : c a b with
  | gt => exact absurd cab h1
  | eq => rw [hcongr cab d]; exact h2
  | lt =>
    cases cbd : c b d with
    | gt => exact absurd cbd h2
    | lt => rw [htrans cab cbd]; simp
    | eq =>
      have hdb : c d b = .eq := by rw [← hswap b d, cbd]; rfl
      have : c d a = c b a := hcongr hdb a
      have hba : c b a = .gt := by rw [← hswap a b, cab]; rfl
      rw [← hswap d a, this, hba]
      simp [Ordering.swap]

/-- Totality of a does-not-compare-greater relation. -/
theorem cmpNeGt_total {γ : Type} (c : γ → γ → Ordering)
    (hswap : ∀ a b, (c a b).swap = c b a) (a b : γ) :
    c a b ≠ .gt ∨ c b a ≠ .gt := by
  cases cab : c a b with
  | lt => exact Or.inl (by simp [cab])
  | eq => exact Or.inl (by simp [cab])
  | gt =>
    have : c b a = .lt := by rw [← hswap a b, cab]; rfl
    exact Or.inr (by simp [this])

/-! ## Order properties of the comparison relations -/

theorem entryLe_trans : ∀ a b c : OEntry, entryLe a b → entryLe b c → entryLe a c :=
  fun _ _ _ h1 h2 =>
    cmpNeGt_trans (fun x y => keyCmp3 (entryKey x) (entryKey y))
      (fun _ _ => keyCmp3_swap _ _)
      (fun ha hb => keyCmp3_trans ha hb)
      (fun {a b} he d => by
        show keyCmp3 (entryKey a) (entryKey d) = keyCmp3 (entryKey b) (entryKey d)
        rw [keyCmp3_eq he])
      h1 h2

theorem entryLe_total : ∀ a b : OEntry, entryLe a b ∨ entryLe b a :=
  fun a b =>
    cmpNeGt_total (fun x y => keyCmp3 (entryKey x) (entryKey y))
      (fun _ _ => keyCmp3_swap _ _) a b

theorem natCmp_refl (s : String) : natCmp s s = .eq :=
  listCmp_refl kcmp_refl _

theorem natCmp_swap (s t : String) : (natCmp s t).swap = natCmp t s :=
  listCmp_swap (fun a b => kcmp_swap a b) _ _

theorem natCmp_key_eq {s t : String} (h : natCmp s t = .eq) :
    natural_key s = natural_key t :=
  listCmp_eq (fun a b => kcmp_eq) h

theorem natCmp_trans {s t u : String} (h1 : natCmp s t = .lt) (h2 : natCmp t u = .lt) :
    natCmp s u = .lt :=
  listCmp_trans (fun a b => kcmp_eq) (fun ha hb => kcmp_trans ha hb) h1 h2

theorem strNatLe_trans : ∀ a b c : String, strNatLe a b → strNatLe b c → strNatLe a c :=
  fun _ _ _ h1 h2 =>
    cmpNeGt_trans natCmp (fun x y => natCmp_swap x y)
      (fun ha hb => natCmp_trans ha hb)
      (fun {a b} he d => by
        unfold natCmp at he ⊢
        rw [listCmp_eq (fun a b => kcmp_eq) he])
      h1 h2

theorem strNatLe_total : ∀ a b : String, strNatLe a b ∨ strNatLe b a :=
  fun a b => cmpNeGt_total natCmp (fun x y => natCmp_swap x y) a b

theorem strNatLe_refl (s : String) : strNatLe s s := by
  unfold strNatLe
  rw [natCmp_refl]
  simp

/-- C3: the natural comparator of propose_m4b_order.py and
build_m4b_inputs.py orders embedded digit runs numerically and non-digit
runs case-insensitively (a2 before a10, a equal to A) and induces a total
preorder (reflexive, transitive, total, antisymmetric up to key equality)
on all strings; but the copy of natural_key in cover_art.py, whose regex
pattern is the escaped (\\d+), does not split digit runs, so there the
comparison of a2 and a10 yields gt instead of lt. -/
theorem claimC3_natural_comparator :
    natCmp ("a2") ("a10") = .lt
    ∧ natCmp ("a") ("A") = .eq
    ∧ (∀ s, natCmp s s = .eq)
    ∧ (∀ s t, natCmp s t = .eq → natural_key s = natural_key t)
    ∧ (∀ s t u, natCmp s t = .lt → natCmp t u = .lt → natCmp s u = .lt)
    ∧ (∀ s t, natCmp s t ≠ .gt ∨ natCmp t s ≠ .gt)
    ∧ coverArtNatCmp ("a2") ("a10") = .gt := by
  refine ⟨by decide, by decide, natCmp_refl, ?_, ?_, ?_, by decide⟩
  · exact fun s t h => natCmp_key_eq h
  · exact fun s t u h1 h2 => natCmp_trans h1 h2
  · exact fun s t => cmpNeGt_total natCmp (fun x y => natCmp_swap x y) s t

/-- Witness for C3: the transitivity component applied at concrete
strings. -/
theorem claimC3_natural_comparator_witness : natCmp ("a1") ("a3") = .lt :=
  claimC3_natural_comparator.2.2.2.2.1 ("a1") ("a2") ("a3") (by decide) (by decide)

/-- C10: in the ordering engine an entry whose disc number parses to the
integer 0 gets disc 1 in its sort key, exactly as if the disc number were
absent, because parse_index(...) or 1 maps every falsy value to 1; so
entries with probed disc 0 and entries with no disc number are
interleaved under disc 1, as the concrete two-file catalog shows. -/
theorem claimC10_disc_zero_defaults_to_one :
    (∀ v : TagVal, parse_index v = some 0 → pyOr1 (parse_index v) = 1)
    ∧ (∀ v : TagVal, parse_index v = some 0 →
        pyOr1 (parse_index v) = pyOr1 (parse_index TagVal.vNone))
    ∧ pyOr1 (parse_index TagVal.vNone) = 1
    ∧ compute_order (["x", "y"]) mdC10 = (["y", "x"], []) := by
  refine ⟨?_, ?_, by decide, by decide⟩
  · intro v h
    rw [h]
    simp [pyOr1]
  · intro v h
    rw [h]
    simp [pyOr1, parse_index]

/-- Witness for C10: a disc tag reading 0 parses to 0 and is keyed as
disc 1. -/
theorem claimC10_witness : pyOr1 (parse_index (TagVal.vStr ("0"))) = 1 :=
  claimC10_disc_zero_defaults_to_one.1 (TagVal.vStr ("0")) (by decide)

/-- C2 (amended): when no entry across the catalog has a parsable track
number, the engine returns the input catalog unchanged, element for
element, and emits exactly the warning
No track numbers detected; falling back to filename order. -/
theorem claimC2_fallback_filename_order :
    ∀ (files : List String) (md : String → MRecord),
      (∀ p ∈ files, parse_index ((md p).track) = none) →
      compute_order files md = (files, [noTrackWarning]) := by
  intro files md h
  unfold compute_order
  have hany :
      (files.map
        (fun p => (p, pyOr1 (parse_index (md p).disk), parse_index (md p).track))).any
        (fun e => e.2.2.isSome) = false := by
    rw [List.any_eq_false]
    intro e he
    rw [List.mem_map] at he
    obtain ⟨p, hp, rfl⟩ := he
    simp [h p hp]
  simp only [hany]
  simp

/-- Counterexample to C2 as stated: on a catalog with no parsable track
number the engine does fall back to the input order, but the warning it
emits is not the string the claim quotes. -/
theorem claimC2_counterexample :
    compute_order (["a"]) (fun _ => emptyRec) = (["a"], [noTrackWarning])
    ∧ noTrackWarning ≠ "no track numbers detected; using filename order." := by
  constructor
  · decide
  · decide

/-- Witness for C2: a concrete two-file catalog with no track numbers is
returned in input order with the fallback warning. -/
theorem claimC2_fallback_filename_order_witness :
    compute_order (["b2", "a10"]) (fun _ => emptyRec) = (["b2", "a10"], [noTrackWarning]) :=
  claimC2_fallback_filename_order (["b2", "a10"]) (fun _ => emptyRec) (by decide)

/-- C8: the concat-list writer fails exactly when some input path
contains a literal single quote; on failure nothing at all is written,
and on success it writes exactly one line
file squote path squote newline per entry, in order. -/
theorem claimC8_concat_list_quote_check :
    ∀ ordered : List String,
      ((write_concat_list ordered).1.isSome ↔ ∃ p ∈ ordered, hasQuote p = true)
      ∧ ((write_concat_list ordered).1.isSome → (write_concat_list ordered).2 = [])
      ∧ ((write_concat_list ordered).1 = none →
          (write_concat_list ordered).2 = ordered.map concatLine) := by
  intro ordered
  unfold write_concat_list
  cases hf : ordered.find? hasQuote with
  | some p =>
    refine ⟨⟨fun _ => ⟨p, List.mem_of_find?_eq_some hf, List.find?_some hf⟩,
      fun _ => by simp⟩, fun _ => rfl, fun hc => by simp at hc⟩
  | none =>
    have hall : ∀ p ∈ ordered, ¬ hasQuote p = true := fun p hp =>
      List.find?_eq_none.mp hf p hp
    refine ⟨⟨fun hs => by simp at hs, ?_⟩, fun hs => by simp at hs, fun _ => rfl⟩
    rintro ⟨p, hp, hq⟩
    exact absurd hq (hall p hp)

/-- Witness for C8: a quote-free list is written in full, line per
entry. -/
theorem claimC8_witness :
    (write_concat_list (["/x/a.m4b", "/x/b.m4b"])).2 =
      (["/x/a.m4b", "/x/b.m4b"]).map concatLine :=
  (claimC8_concat_list_quote_check (["/x/a.m4b", "/x/b.m4b"])).2.2 (by decide)

/-- The ordered output of compute_order when some entry has a parsable
track number: the stable sort of the annotated entries by the composite
key, projected back to paths. -/
theorem compute_order_fst_has_track (files : List String) (md : String → MRecord)
    (hex : ∃ p ∈ files, (parse_index ((md p).track)).isSome = true) :
    (compute_order files md).1 =
      (List.insertionSort entryLe
        (files.map
          (fun p => (p, pyOr1 (parse_index (md p).disk), parse_index (md p).track)))).map
        (fun e => e.1) := by
  unfold compute_order
  simp [hex]

/-- C1 (amended): whenever at least one catalog entry has a parsable
track number, the ordering engine returns a permutation of the catalog
that is sorted by the composite key (disc ascending with falsy disc
values defaulted to 1; then track ascending with missing or unparsable
track numbers mapped to the sentinel 10^9, hence after every entry whose
track number is smaller than the sentinel; then natural order of the
relative path); in particular A(track=1), B(track=None), C(track=2) comes
out as A, C, B. -/
theorem claimC1_sort_composite_key :
    (∀ (files : List String) (md : String → MRecord),
      (∃ p ∈ files, (parse_index ((md p).track)).isSome = true) →
      (compute_order files md).1.Perm files
        ∧ List.Sorted (pathLe md) (compute_order files md).1)
    ∧ compute_order (["A", "B", "C"]) mdABC = (["A", "C", "B"], [missingWarning]) := by
  constructor
  · intro files md hex
    rw [compute_order_fst_has_track files md hex]
    constructor
    · have h1 :=
        (List.perm_insertionSort entryLe
          (files.map
            (fun p => (p, pyOr1 (parse_index (md p).disk), parse_index (md p).track)))).map
          (fun e => e.1)
      have h3 :
          (files.map
            (fun p => (p, pyOr1 (parse_index (md p).disk), parse_index (md p).track))).map
            (fun e => e.1) = files := by
        rw [List.map_map]
        exact List.map_id' files
      rw [h3] at h1
      exact h1
    · have hs :
          List.Sorted entryLe
            (List.insertionSort entryLe
              (files.map
                (fun p => (p, pyOr1 (parse_index (md p).disk), parse_index (md p).track)))) :=
        @List.sorted_insertionSort OEntry entryLe _ ⟨entryLe_total⟩ ⟨entryLe_trans⟩ _
      refine List.pairwise_map.mpr (List.Pairwise.imp_of_mem ?_ hs)
      intro a b ha hb hab
      rw [List.mem_insertionSort, List.mem_map] at ha hb
      obtain ⟨pa, hpa, rfl⟩ := ha
      obtain ⟨pb, hpb, rfl⟩ := hb
      exact hab
  · decide

/-- Counterexample to C1 as stated: with one entry carrying the parsable
track number 2000000000 and another entry missing its track number, the
missing-track entry sorts before the real-track entry (the sentinel is
only 10^9), contradicting the claim that unparsable or missing track
numbers sort after every entry with a real track number. -/
theorem claimC1_counterexample :
    parse_index ((mdBig ("a")).track) = none
    ∧ parse_index ((mdBig ("b")).track) = some 2000000000
    ∧ compute_order (["b", "a"]) mdBig = (["a", "b"], [missingWarning]) := by
  refine ⟨by decide, by decide, by decide⟩

/-- Witness for C1: the spec scenario catalog has a parsable track
number, and the engine output is a sorted permutation of it. -/
theorem claimC1_witness :
    (compute_order (["A", "B", "C"]) mdABC).1.Perm (["A", "B", "C"])
    ∧ List.Sorted (pathLe mdABC) (compute_order (["A", "B", "C"]) mdABC).1 :=
  claimC1_sort_composite_key.1 (["A", "B", "C"]) mdABC (by decide)

theorem metadata_score_nonneg (r : MRecord) : 0 ≤ metadata_score r := by
  unfold metadata_score
  split_ifs <;> omega

/-- Full characterization of the selection loop of
choose_metadata_source: either no element strictly beats the incoming
best score and the accumulator is returned unchanged, or the result is
the first element attaining the maximum. -/
theorem chooseLoop_spec (md : String → MRecord) :
    ∀ (l : List String) (bp : Option String) (bs : ℤ),
      (chooseLoop md l bp bs = (bp, bs) ∧ ∀ p ∈ l, metadata_score (md p) ≤ bs)
      ∨ (∃ q pre suf, l = pre ++ q :: suf
          ∧ chooseLoop md l bp bs = (some q, metadata_score (md q))
          ∧ bs < metadata_score (md q)
          ∧ (∀ p ∈ pre, metadata_score (md p) < metadata_score (md q))
          ∧ (∀ p ∈ suf, metadata_score (md p) ≤ metadata_score (md q))) := by
  intro l
  induction l with
  | nil => exact fun bp bs => Or.inl ⟨rfl, by simp⟩
  | cons p rest ih =>
    intro bp bs
    by_cases hs : metadata_score (md p) > bs
    · have hstep : chooseLoop md (p :: rest) bp bs =
          chooseLoop md rest (some p) (metadata_score (md p)) := by
        simp [chooseLoop, hs]
      rcases ih (some p) (metadata_score (md p)) with
        ⟨heq, hall⟩ | ⟨q, pre, suf, hl, heq, hlt, hpre, hsuf⟩
      · refine Or.inr ⟨p, [], rest, rfl, ?_, hs, by simp, hall⟩
        rw [hstep, heq]
      · refine Or.inr ⟨q, p :: pre, suf, by rw [hl]; rfl, ?_, lt_trans hs hlt, ?_, hsuf⟩
        · rw [hstep, heq]
        · intro x hx
          rcases List.mem_cons.mp hx with rfl | hx
          · exact hlt
          · exact hpre x hx
    · push_neg at hs
      have hstep : chooseLoop md (p :: rest) bp bs = chooseLoop md rest bp bs := by
        have hn : ¬ (metadata_score (md p) > bs) := not_lt.mpr hs
        simp [chooseLoop, hn]
      rcases ih bp bs with ⟨heq, hall⟩ | ⟨q, pre, suf, hl, heq, hlt, hpre, hsuf⟩
      · refine Or.inl ⟨by rw [hstep, heq], ?_⟩
        intro x hx
        rcases List.mem_cons.mp hx with rfl | hx
        · exact hs
        · exact hall x hx
      · refine Or.inr ⟨q, p :: pre, suf, by rw [hl]; rfl, by rw [hstep, heq], hlt, ?_, hsuf⟩
        intro x hx
        rcases List.mem_cons.mp hx with rfl | hx
        · exact lt_of_le_of_lt hs hlt
        · exact hpre x hx

/-- C6: the metadata-source selector scores each entry by how many of
title, album, artist, albumArtist are present, returns none exactly when
every entry scores 0, and otherwise returns the entry with the maximum
score, ties broken by the earliest position in play order (every entry
strictly earlier than the winner scores strictly less). -/
theorem claimC6_metadata_source :
    ∀ (ordered : List String) (md : String → MRecord),
      (choose_metadata_source ordered md = none ↔
        ∀ p ∈ ordered, metadata_score (md p) = 0)
      ∧ (∀ q, choose_metadata_source ordered md = some q →
          0 < metadata_score (md q)
          ∧ (∀ p ∈ ordered, metadata_score (md p) ≤ metadata_score (md q))
          ∧ ∃ pre suf, ordered = pre ++ q :: suf
              ∧ ∀ p ∈ pre, metadata_score (md p) < metadata_score (md q)) := by
  intro ordered md
  unfold choose_metadata_source
  rcases chooseLoop_spec md ordered none (-1) with
    ⟨heq, hall⟩ | ⟨q, pre, suf, hl, heq, hlt, hpre, hsuf⟩
  · rw [heq]
    constructor
    · constructor
      · intro _ p hp
        exact absurd (hall p hp) (by have := metadata_score_nonneg (md p); omega)
      · intro _
        simp
    · intro q hq
      norm_num at hq
      exact Option.noConfusion hq
  · rw [heq]
    by_cases hq0 : metadata_score (md q) ≤ 0
    · have hq0' : metadata_score (md q) = 0 :=
        le_antisymm hq0 (metadata_score_nonneg (md q))
      rw [if_pos hq0]
      constructor
      · constructor
        · intro _ p hp
          rw [hl] at hp
          rcases List.mem_append.mp hp with hp | hp
          · exact absurd (hpre p hp) (by have := metadata_score_nonneg (md p); omega)
          · rcases List.mem_cons.mp hp with rfl | hp
            · exact hq0'
            · have h1 := hsuf p hp
              have h2 := metadata_score_nonneg (md p)
              omega
        · intro _
          rfl
      · intro q' hq'
        simp at hq'
    · push_neg at hq0
      rw [if_neg (not_le.mpr hq0)]
      constructor
      · constructor
        · intro h
          simp at h
        · intro hall0
          have hscore : metadata_score (md q) = 0 :=
            hall0 q (by rw [hl]; exact List.mem_append_right _ (List.mem_cons_self q suf))
          exact absurd hscore (by omega)
      · intro q' hq'
        have hqq : q' = q := by
          injection hq' with h
          exact h.symm
        subst hqq
        refine ⟨hq0, ?_, pre, suf, hl, hpre⟩
        intro p hp
        rw [hl] at hp
        rcases List.mem_append.mp hp with hp | hp
        · exact le_of_lt (hpre p hp)
        · rcases List.mem_cons.mp hp with rfl | hp
          · exact le_refl _
          · exact hsuf p hp

/-- Witness for C6: on the three-entry catalog with scores 2, 4, 1 the
selector returns the score-4 entry, and that score is positive and
maximal. -/
theorem claimC6_witness :
    choose_metadata_source (["e1", "e2", "e3"]) mdScores = some ("e2")
    ∧ 0 < metadata_score (mdScores ("e2"))
    ∧ (∀ p ∈ (["e1", "e2", "e3"] : List String),
        metadata_score (mdScores p) ≤ metadata_score (mdScores ("e2"))) := by
  refine ⟨by decide, ?_, ?_⟩
  · exact ((claimC6_metadata_source (["e1", "e2", "e3"]) mdScores).2 ("e2") (by decide)).1
  · exact ((claimC6_metadata_source (["e1", "e2", "e3"]) mdScores).2 ("e2") (by decide)).2.1

/-- The first element satisfying a predicate: membership decomposition
with all earlier elements failing the predicate. -/
theorem find?_decomp {α : Type} (f : α → Bool) :
    ∀ {l : List α} {a : α}, l.find? f = some a →
      f a = true ∧ ∃ pre suf, l = pre ++ a :: suf ∧ ∀ x ∈ pre, f x = false := by
  intro l
  induction l with
  | nil =>
    intro a h
    simp at h
  | cons b rest ih =>
    intro a h
    by_cases hb : f b = true
    · rw [List.find?_cons_of_pos _ hb] at h
      injection h with h
      subst h
      exact ⟨hb, [], rest, rfl, by simp⟩
    · have hb' : f b = false := by
        revert hb
        cases f b <;> simp
      rw [List.find?_cons_of_neg _ (by simp [hb'])] at h
      obtain ⟨hfa, pre, suf, hl, hpre⟩ := ih h
      refine ⟨hfa, b :: pre, suf, by rw [hl]; rfl, ?_⟩
      intro x hx
      rcases List.mem_cons.mp hx with rfl | hx
      · exact hb'
      · exact hpre x hx

/-- A successful sidecar search returns a scanned file whose lowercased
name is a configured sidecar name, and it is naturally earliest among
all such files. -/
theorem find_sidecar_spec (allFiles names : List String) (s : String)
    (h : find_sidecar allFiles names = some s) :
    s ∈ allFiles ∧ names.contains (pyLower (pName s)) = true
    ∧ ∀ m ∈ allFiles, names.contains (pyLower (pName m)) = true → strNatLe s m := by
  unfold find_sidecar at h
  have hsorted :=
    @List.sorted_insertionSort String strNatLe _ ⟨strNatLe_total⟩ ⟨strNatLe_trans⟩
      (allFiles.filter (fun p => names.contains (pyLower (pName p))))
  cases hsort : List.insertionSort strNatLe
      (allFiles.filter (fun p => names.contains (pyLower (pName p)))) with
  | nil =>
    rw [hsort] at h
    simp at h
  | cons s0 tail =>
    rw [hsort] at h hsorted
    have hs0 : s0 = s := by
      injection h with h
    subst hs0
    have hmem : s0 ∈ allFiles.filter (fun p => names.contains (pyLower (pName p))) := by
      have hx : s0 ∈ s0 :: tail := List.mem_cons_self s0 tail
      rw [← hsort] at hx
      exact (List.mem_insertionSort _).mp hx
    have hmem' := List.mem_filter.mp hmem
    refine ⟨hmem'.1, hmem'.2, ?_⟩
    intro m hmA hmP
    have hm2 : m ∈ allFiles.filter (fun p => names.contains (pyLower (pName p))) :=
      List.mem_filter.mpr ⟨hmA, hmP⟩
    have hm3 : m ∈ s0 :: tail := by
      rw [← hsort]
      exact (List.mem_insertionSort _).mpr hm2
    rcases List.mem_cons.mp hm3 with rfl | hm4
    · exact strNatLe_refl m
    · exact (List.sorted_cons.mp hsorted).1 m hm4

/-- C7 (amended): a sidecar image always wins (the naturally earliest
matching file in the scanned set); when no sidecar exists the selector
scans the ordered audio files in play order and returns the first with an
embedded cover; it returns none exactly when neither a sidecar nor an
embedded cover exists. -/
theorem claimC7_cover_source :
    ∀ (allFiles ordered : List String) (md : String → MRecord) (names : List String),
      (∀ s, find_sidecar allFiles names = some s →
        choose_cover_source allFiles ordered md names = some (("sidecar:") ++ s)
        ∧ s ∈ allFiles ∧ names.contains (pyLower (pName s)) = true
        ∧ ∀ m ∈ allFiles, names.contains (pyLower (pName m)) = true → strNatLe s m)
      ∧ (find_sidecar allFiles names = none →
          ∀ q, ordered.find? (fun p => has_embedded_cover (md p)) = some q →
            choose_cover_source allFiles ordered md names = some (("embedded:") ++ q)
            ∧ has_embedded_cover (md q) = true
            ∧ ∃ pre suf, ordered = pre ++ q :: suf
                ∧ ∀ p ∈ pre, has_embedded_cover (md p) = false)
      ∧ (choose_cover_source allFiles ordered md names = none ↔
          find_sidecar allFiles names = none
          ∧ ∀ p ∈ ordered, has_embedded_cover (md p) = false) := by
  intro allFiles ordered md names
  refine ⟨?_, ?_, ?_⟩
  · intro s hs
    refine ⟨?_, find_sidecar_spec allFiles names s hs⟩
    unfold choose_cover_source
    rw [hs]
  · intro hn q hq
    obtain ⟨hcov, pre, suf, hl, hpre⟩ := find?_decomp _ hq
    refine ⟨?_, hcov, pre, suf, hl, hpre⟩
    unfold choose_cover_source
    rw [hn, hq]
    rfl
  · unfold choose_cover_source
    cases hside : find_sidecar allFiles names with
    | some s =>
      constructor
      · intro h
        simp at h
      · rintro ⟨h1, _⟩
        exact Option.noConfusion h1
    | none =>
      constructor
      · intro h
        refine ⟨rfl, ?_⟩
        have h2 : ordered.find? (fun p => has_embedded_cover (md p)) = none := by
          cases hfind : ordered.find? (fun p => has_embedded_cover (md p)) with
          | none => rfl
          | some x =>
            rw [hfind] at h
            simp at h
        intro p hp
        have h3 := List.find?_eq_none.mp h2 p hp
        revert h3
        cases has_embedded_cover (md p) <;> simp
      · rintro ⟨_, hall⟩
        have h2 : ordered.find? (fun p => has_embedded_cover (md p)) = none :=
          List.find?_eq_none.mpr (fun x hx => by simp [hall x hx])
        rw [h2]
        rfl

/-- Counterexample to C7 as stated: with no sidecar present, both
ordered audio files carrying embedded covers and the
audiobook-container file a.m4b second in play order, the selector
returns the non-container file b.mp3 — it scans in play order and does
not prioritize the container extension (that prioritization exists only
in the separate cover_art.py extractor). -/
theorem claimC7_counterexample :
    choose_cover_source (["b.mp3", "a.m4b"]) (["b.mp3", "a.m4b"]) mdCoverAll
      (["cover.jpg"]) = some (("embedded:") ++ ("b.mp3"))
    ∧ has_embedded_cover (mdCoverAll ("a.m4b")) = true
    ∧ (("embedded:") ++ ("b.mp3") : String) ≠ ("embedded:") ++ ("a.m4b") := by
  refine ⟨by decide, by decide, by decide⟩

/-- Witness for C7: with a sidecar in a subdirectory the selector
returns it, ignoring the embedded cover of the audio file. -/
theorem claimC7_witness :
    choose_cover_source (["sub/cover.jpg", "a.m4b"]) (["a.m4b"]) mdCoverAll
      (["cover.jpg"]) = some (("sidecar:") ++ ("sub/cover.jpg")) :=
  ((claimC7_cover_source (["sub/cover.jpg", "a.m4b"]) (["a.m4b"]) mdCoverAll
    (["cover.jpg"])).1 ("sub/cover.jpg") (by decide)).1

/-! ## Lemmas about the chapter builder -/

theorem zip_map_self (files : List BFile) (dur : BFile → ℤ) :
    files.zip (files.map dur) = files.map (fun f => (f, dur f)) := by
  induction files with
  | nil => rfl
  | cons f rest ih => simp [ih]

theorem fileLoop_ne_nil (x : BFile × ℤ) (l : List (BFile × ℤ)) (s : ℤ) :
    fileLoop (x :: l) s ≠ [] := by
  obtain ⟨f, d⟩ := x
  simp [fileLoop]

theorem fileLoop_head (x : BFile × ℤ) (l : List (BFile × ℤ)) (s : ℤ) :
    (fileLoop (x :: l) s).head?.map (fun ch => ch.1) = some s := by
  obtain ⟨f, d⟩ := x
  simp [fileLoop]

theorem fileLoop_chain : ∀ (l : List (BFile × ℤ)) (s : ℤ),
    List.Chain' (fun a b => a.2.1 = b.1) (fileLoop l s)
  | [], _ => by simp [fileLoop]
  | [x], s => by
    obtain ⟨f, d⟩ := x
    simp [fileLoop]
  | x :: y :: rest, s => by
    obtain ⟨f, d⟩ := x
    obtain ⟨g, e⟩ := y
    have ih := fileLoop_chain ((g, e) :: rest) (s + d)
    simp only [fileLoop] at ih ⊢
    rw [List.chain'_cons]
    exact ⟨rfl, ih⟩

theorem fileLoop_last : ∀ (l : List (BFile × ℤ)) (s : ℤ), l ≠ [] →
    (fileLoop l s).getLast?.map (fun ch => ch.2.1) = some (s + (l.map (fun x => x.2)).sum)
  | [], _, h => absurd rfl h
  | [x], s, _ => by
    obtain ⟨f, d⟩ := x
    simp [fileLoop]
  | x :: y :: rest, s, _ => by
    obtain ⟨f, d⟩ := x
    obtain ⟨g, e⟩ := y
    have ih := fileLoop_last ((g, e) :: rest) (s + d) (by simp)
    simp only [fileLoop] at ih ⊢
    rw [List.getLast?_cons_cons, ih]
    simp only [List.map_cons, List.sum_cons]
    congr 1
    ring

theorem fileLoop_mono : ∀ (l : List (BFile × ℤ)) (s : ℤ), (∀ x ∈ l, 0 ≤ x.2) →
    ∀ ch ∈ fileLoop l s, ch.1 ≤ ch.2.1
  | [], _, _, ch, h => by simp [fileLoop] at h
  | x :: rest, s, hpos, ch, h => by
    obtain ⟨f, d⟩ := x
    simp only [fileLoop, List.mem_cons] at h
    rcases h with rfl | h
    · have hd : (0:ℤ) ≤ d := hpos (f, d) (List.mem_cons_self _ _)
      show s ≤ s + d
      omega
    · exact fileLoop_mono rest (s + d) (fun z hz => hpos z (List.mem_cons_of_mem _ hz)) ch h

theorem dirLoop_cons_skip (r : String) (f : BFile) (d : ℤ) (rest : List (BFile × ℤ))
    (cur : Option String) (cum : ℤ) (h : some (chapter_title_from_dir f r) = cur) :
    dirLoop r ((f, d) :: rest) cur cum = dirLoop r rest cur (cum + d) := by
  simp [dirLoop, h]

theorem dirLoop_cons_push (r : String) (f : BFile) (d : ℤ) (rest : List (BFile × ℤ))
    (cur : Option String) (cum : ℤ) (h : ¬ some (chapter_title_from_dir f r) = cur) :
    dirLoop r ((f, d) :: rest) cur cum =
      (chapter_title_from_dir f r ::
          (dirLoop r rest (some (chapter_title_from_dir f r)) (cum + d)).1,
        cum :: (dirLoop r rest (some (chapter_title_from_dir f r)) (cum + d)).2.1,
        (dirLoop r rest (some (chapter_title_from_dir f r)) (cum + d)).2.2) := by
  simp [dirLoop, h]

theorem dirLoop_len (r : String) : ∀ (l : List (BFile × ℤ)) (cur : Option String) (cum : ℤ),
    (dirLoop r l cur cum).1.length = (dirLoop r l cur cum).2.1.length
  | [], _, _ => rfl
  | (f, d) :: rest, cur, cum => by
    by_cases h : some (chapter_title_from_dir f r) = cur
    · rw [dirLoop_cons_skip r f d rest cur cum h]
      exact dirLoop_len r rest cur (cum + d)
    · rw [dirLoop_cons_push r f d rest cur cum h]
      simp [dirLoop_len r rest _ (cum + d)]

theorem dirLoop_total (r : String) : ∀ (l : List (BFile × ℤ)) (cur : Option String) (cum : ℤ),
    (dirLoop r l cur cum).2.2 = cum + (l.map (fun x => x.2)).sum
  | [], _, cum => by simp [dirLoop]
  | (f, d) :: rest, cur, cum => by
    by_cases h : some (chapter_title_from_dir f r) = cur
    · rw [dirLoop_cons_skip r f d rest cur cum h, dirLoop_total r rest cur (cum + d)]
      simp only [List.map_cons, List.sum_cons]
      ring
    · rw [dirLoop_cons_push r f d rest cur cum h]
      show (dirLoop r rest _ (cum + d)).2.2 = _
      rw [dirLoop_total r rest _ (cum + d)]
      simp only [List.map_cons, List.sum_cons]
      ring

theorem dirLoop_chain (r : String) : ∀ (l : List (BFile × ℤ)) (cur : Option String) (cum : ℤ),
    (∀ x ∈ l, 0 ≤ x.2) →
    List.Chain' (fun a b => a ≤ b)
        ((dirLoop r l cur cum).2.1 ++ [(dirLoop r l cur cum).2.2])
      ∧ ∀ x ∈ (dirLoop r l cur cum).2.1 ++ [(dirLoop r l cur cum).2.2], cum ≤ x
  | [], _, cum, _ => by simp [dirLoop]
  | (f, d) :: rest, cur, cum, hpos => by
    have hd : (0:ℤ) ≤ d := hpos (f, d) (List.mem_cons_self _ _)
    have hpos' : ∀ x ∈ rest, (0:ℤ) ≤ x.2 := fun z hz => hpos z (List.mem_cons_of_mem _ hz)
    by_cases h : some (chapter_title_from_dir f r) = cur
    · rw [dirLoop_cons_skip r f d rest cur cum h]
      have ih := dirLoop_chain r rest cur (cum + d) hpos'
      exact ⟨ih.1, fun x hx => le_trans (by omega) (ih.2 x hx)⟩
    · rw [dirLoop_cons_push r f d rest cur cum h]
      have ih := dirLoop_chain r rest (some (chapter_title_from_dir f r)) (cum + d) hpos'
      constructor
      · show List.Chain' _ (cum :: _)
        rw [List.chain'_cons']
        refine ⟨?_, ih.1⟩
        intro y hy
        have hm : y ∈ (dirLoop r rest _ (cum + d)).2.1 ++ [(dirLoop r rest _ (cum + d)).2.2] :=
          List.mem_of_mem_head? hy
        have := ih.2 y hm
        omega
      · intro x hx
        rcases List.mem_cons.mp hx with rfl | hx
        · exact le_refl x
        · have := ih.2 x hx
          omega

theorem pairChapters_ne_nil (s1 : ℤ) (ss : List ℤ) (ts : List String) (total : ℤ)
    (h : (s1 :: ss).length = ts.length) : pairChapters (s1 :: ss) ts total ≠ [] := by
  cases ts with
  | nil => simp at h
  | cons t ts2 =>
    cases ss with
    | nil =>
      cases ts2 with
      | nil => simp [pairChapters]
      | cons a b => simp at h
    | cons s2 rest => simp [pairChapters]

theorem pairChapters_head (s1 : ℤ) (ss : List ℤ) (ts : List String) (total : ℤ)
    (h : (s1 :: ss).length = ts.length) :
    (pairChapters (s1 :: ss) ts total).head?.map (fun ch => ch.1) = some s1 := by
  cases ts with
  | nil => simp at h
  | cons t ts2 =>
    cases ss with
    | nil =>
      cases ts2 with
      | nil => rfl
      | cons a b => simp at h
    | cons s2 rest => rfl

theorem pairChapters_titles : ∀ (ss : List ℤ) (ts : List String) (total : ℤ),
    ss.length = ts.length → (pairChapters ss ts total).map (fun ch => ch.2.2) = ts := by
  intro ss
  induction ss with
  | nil =>
    intro ts total h
    cases ts with
    | nil => rfl
    | cons t ts2 => simp at h
  | cons s1 rest ih =>
    intro ts total h
    cases ts with
    | nil => simp at h
    | cons t ts2 =>
      cases rest with
      | nil =>
        cases ts2 with
        | nil => rfl
        | cons a b => simp at h
      | cons s2 rest2 =>
        have h2 : (s2 :: rest2).length = ts2.length := by
          simp at h ⊢
          omega
        simp only [pairChapters, List.map_cons]
        rw [ih ts2 total h2]

theorem pairChapters_chain : ∀ (ss : List ℤ) (ts : List String) (total : ℤ),
    ss.length = ts.length →
    List.Chain' (fun a b => a.2.1 = b.1) (pairChapters ss ts total) := by
  intro ss
  induction ss with
  | nil =>
    intro ts total _
    cases ts <;> simp [pairChapters]
  | cons s1 rest ih =>
    intro ts total h
    cases ts with
    | nil => simp at h
    | cons t ts2 =>
      cases rest with
      | nil =>
        cases ts2 with
        | nil => simp [pairChapters]
        | cons a b => simp at h
      | cons s2 rest2 =>
        have h2 : (s2 :: rest2).length = ts2.length := by
          simp at h ⊢
          omega
        simp only [pairChapters]
        rw [List.chain'_cons']
        refine ⟨?_, ih ts2 total h2⟩
        intro y hy
        have hh := pairChapters_head s2 rest2 ts2 total h2
        rw [Option.mem_def] at hy
        rw [hy] at hh
        simp at hh
        exact hh.symm

theorem pairChapters_last : ∀ (ss : List ℤ) (ts : List String) (total : ℤ),
    ss.length = ts.length → ss ≠ [] →
    (pairChapters ss ts total).getLast?.map (fun ch => ch.2.1) = some total := by
  intro ss
  induction ss with
  | nil => intro ts total _ hne; exact absurd rfl hne
  | cons s1 rest ih =>
    intro ts total h _
    cases ts with
    | nil => simp at h
    | cons t ts2 =>
      cases rest with
      | nil =>
        cases ts2 with
        | nil => simp [pairChapters]
        | cons a b => simp at h
      | cons s2 rest2 =>
        have h2 : (s2 :: rest2).length = ts2.length := by
          simp at h ⊢
          omega
        have hne2 := pairChapters_ne_nil s2 rest2 ts2 total h2
        obtain ⟨x, xs, hxs⟩ : ∃ x xs, pairChapters (s2 :: rest2) ts2 total = x :: xs := by
          cases hrec : pairChapters (s2 :: rest2) ts2 total with
          | nil => exact absurd hrec hne2
          | cons x xs => exact ⟨x, xs, rfl⟩
        have hlast := ih ts2 total h2 (by simp)
        simp only [pairChapters]
        rw [hxs, List.getLast?_cons_cons, ← hxs]
        exact hlast

theorem pairChapters_mono : ∀ (ss : List ℤ) (ts : List String) (total : ℤ),
    ss.length = ts.length →
    List.Chain' (fun a b => a ≤ b) (ss ++ [total]) →
    ∀ ch ∈ pairChapters ss ts total, ch.1 ≤ ch.2.1 := by
  intro ss
  induction ss with
  | nil =>
    intro ts total _ _ ch hch
    cases ts <;> simp [pairChapters] at hch
  | cons s1 rest ih =>
    intro ts total h hchain ch hch
    cases ts with
    | nil => simp at h
    | cons t ts2 =>
      cases rest with
      | nil =>
        cases ts2 with
        | nil =>
          simp only [pairChapters, List.mem_singleton] at hch
          subst hch
          show s1 ≤ total
          exact (List.chain'_cons.mp hchain).1
        | cons a b => simp at h
      | cons s2 rest2 =>
        have h2 : (s2 :: rest2).length = ts2.length := by
          simp at h ⊢
          omega
        simp only [pairChapters, List.mem_cons] at hch
        rcases hch with rfl | hch
        · show s1 ≤ s2
          exact (List.chain'_cons.mp hchain).1
        · exact ih ts2 total h2 (List.chain'_cons.mp hchain).2 ch hch

/-- C4: for every non-empty file list and chapter mode other than none,
the chapters form a contiguous partition of the merged timeline: the
chapter list is non-empty, the first chapter starts at 0, every chapter
ends where the next one starts, the last chapter ends at the total
accumulated duration, and (for nonnegative probed durations) every
chapter start does not exceed its end. -/
theorem claimC4_chapter_partition :
    ∀ (files : List BFile) (rootName : String) (mode : ChapterMode) (dur : BFile → ℤ),
      mode ≠ ChapterMode.noneMode → files ≠ [] →
      build_chapters files rootName mode dur ≠ []
      ∧ (build_chapters files rootName mode dur).head?.map (fun ch => ch.1) = some 0
      ∧ List.Chain' (fun a b => a.2.1 = b.1) (build_chapters files rootName mode dur)
      ∧ (build_chapters files rootName mode dur).getLast?.map (fun ch => ch.2.1)
          = some ((files.map dur).sum)
      ∧ ((∀ f ∈ files, 0 ≤ dur f) →
          ∀ ch ∈ build_chapters files rootName mode dur, ch.1 ≤ ch.2.1) := by
  intro files rootName mode dur hmode hne
  obtain ⟨f0, rest, rfl⟩ : ∃ f0 rest, files = f0 :: rest := by
    cases files with
    | nil => exact absurd rfl hne
    | cons a b => exact ⟨a, b, rfl⟩
  cases mode with
  | noneMode => exact absurd rfl hmode
  | fileMode =>
    simp only [build_chapters]
    rw [zip_map_self]
    simp only [List.map_cons]
    refine ⟨fileLoop_ne_nil _ _ _, fileLoop_head _ _ _, fileLoop_chain _ _, ?_, ?_⟩
    · rw [fileLoop_last _ 0 (by simp)]
      congr 1
      have hmm : ((f0, dur f0) :: List.map (fun f => (f, dur f)) rest).map (fun x => x.2)
          = dur f0 :: rest.map dur := by
        simp [List.map_map]
      rw [hmm, zero_add]
    · intro hdpos ch hch
      refine fileLoop_mono _ 0 ?_ ch hch
      intro x hx
      simp only [List.mem_cons, List.mem_map] at hx
      rcases hx with rfl | ⟨f, hf, rfl⟩
      · exact hdpos f0 (by simp)
      · exact hdpos f (by simp [hf])
  | dirMode =>
    simp only [build_chapters]
    rw [zip_map_self]
    simp only [List.map_cons]
    have hpush := dirLoop_cons_push rootName f0 (dur f0)
      (rest.map (fun f => (f, dur f))) none 0 (by simp)
    rw [hpush]
    have hlen :
        ((0:ℤ) :: (dirLoop rootName (rest.map (fun f => (f, dur f)))
          (some (chapter_title_from_dir f0 rootName)) (0 + dur f0)).2.1).length =
        (chapter_title_from_dir f0 rootName ::
          (dirLoop rootName (rest.map (fun f => (f, dur f)))
            (some (chapter_title_from_dir f0 rootName)) (0 + dur f0)).1).length := by
      simp [dirLoop_len]
    refine ⟨pairChapters_ne_nil _ _ _ _ hlen, pairChapters_head _ _ _ _ hlen,
      pairChapters_chain _ _ _ hlen, ?_, ?_⟩
    · rw [pairChapters_last _ _ _ hlen (by simp)]
      congr 1
      rw [dirLoop_total]
      have hmm : (rest.map (fun f => (f, dur f))).map (fun x => x.2) = rest.map dur := by
        simp [List.map_map]
      rw [hmm]
      simp only [List.map_cons, List.sum_cons]
      ring
    · intro hdpos ch hch
      have hpos : ∀ x ∈ (f0, dur f0) :: rest.map (fun f => (f, dur f)), (0:ℤ) ≤ x.2 := by
        intro x hx
        simp only [List.mem_cons, List.mem_map] at hx
        rcases hx with rfl | ⟨f, hf, rfl⟩
        · exact hdpos f0 (by simp)
        · exact hdpos f (by simp [hf])
      have hchain := (dirLoop_chain rootName
        ((f0, dur f0) :: rest.map (fun f => (f, dur f))) none 0 hpos).1
      rw [hpush] at hchain
      exact pairChapters_mono _ _ _ hlen hchain ch hch

/-- Witness for C4: the two-file catalog with duration 10 each yields a
non-empty chapter list starting at 0. -/
theorem claimC4_witness :
    build_chapters ([["a"], ["b"]]) ("r") .fileMode (fun _ => 10) ≠ []
    ∧ (build_chapters ([["a"], ["b"]]) ("r") .fileMode
        (fun _ => 10)).head?.map (fun ch => ch.1) = some 0 := by
  have h := claimC4_chapter_partition ([["a"], ["b"]]) ("r") .fileMode (fun _ => 10)
    (by decide) (by decide)
  exact ⟨h.1, h.2.1⟩

/-- The titles collected by the directory loop are exactly the
adjacent-duplicate-free reduction of the per-entry titles, with the
pending title prepended. -/
theorem dirLoop_titles_destutter (r : String) :
    ∀ (l : List (BFile × ℤ)) (t : String) (cum : ℤ),
      List.destutter' (fun a b => a ≠ b) t
          (l.map (fun x => chapter_title_from_dir x.1 r)) =
        t :: (dirLoop r l (some t) cum).1
  | [], t, cum => by simp [dirLoop]
  | (f, d) :: rest, t, cum => by
    by_cases h : chapter_title_from_dir f r = t
    · rw [dirLoop_cons_skip r f d rest (some t) cum (by rw [h])]
      simp only [List.map_cons]
      rw [List.destutter'_cons_neg _ (by simp [h])]
      exact dirLoop_titles_destutter r rest t (cum + d)
    · rw [dirLoop_cons_push r f d rest (some t) cum (by simp [h])]
      simp only [List.map_cons]
      rw [List.destutter'_cons_pos _ (fun hh => h hh.symm)]
      rw [dirLoop_titles_destutter r rest (chapter_title_from_dir f r) (cum + d)]

/-- C5 (amended): in per-directory mode a new chapter begins exactly when
the chapter title of the current entry (the directory path relative to
the root, with the root level mapped to the root name or Root) differs
from the previous entry title — the chapter titles are the
adjacent-duplicate-free reduction of the per-entry title sequence; in
particular, entries in directories X, X, Y, X yield exactly 3 chapters
titled X, Y, X, with X appearing in two distinct chapters. -/
theorem claimC5_per_directory_adjacency :
    (∀ (files : List BFile) (rootName : String) (dur : BFile → ℤ),
      (build_chapters files rootName .dirMode dur).map (fun ch => ch.2.2) =
        List.destutter (fun a b => a ≠ b)
          (files.map (fun f => chapter_title_from_dir f rootName)))
    ∧ (build_chapters ([["X", "a"], ["X", "b"], ["Y", "c"], ["X", "d"]]) ("R") .dirMode
        (fun _ => 1)).map (fun ch => ch.2.2) = [("X"), ("Y"), ("X")]
    ∧ (build_chapters ([["X", "a"], ["X", "b"], ["Y", "c"], ["X", "d"]]) ("R") .dirMode
        (fun _ => 1)).length = 3 := by
  refine ⟨?_, by decide, by decide⟩
  intro files rootName dur
  cases files with
  | nil => rfl
  | cons f0 rest =>
    simp only [build_chapters]
    rw [zip_map_self]
    simp only [List.map_cons]
    have hpush := dirLoop_cons_push rootName f0 (dur f0)
      (rest.map (fun f => (f, dur f))) none 0 (by simp)
    rw [hpush]
    have hlen :
        ((0:ℤ) :: (dirLoop rootName (rest.map (fun f => (f, dur f)))
          (some (chapter_title_from_dir f0 rootName)) (0 + dur f0)).2.1).length =
        (chapter_title_from_dir f0 rootName ::
          (dirLoop rootName (rest.map (fun f => (f, dur f)))
            (some (chapter_title_from_dir f0 rootName)) (0 + dur f0)).1).length := by
      simp [dirLoop_len]
    rw [pairChapters_titles _ _ _ hlen]
    rw [List.destutter_cons']
    have hmm :
        (rest.map (fun f => (f, dur f))).map (fun x => chapter_title_from_dir x.1 rootName) =
          rest.map (fun f => chapter_title_from_dir f rootName) := by
      simp [List.map_map]
    rw [← hmm]
    exact (dirLoop_titles_destutter rootName (rest.map (fun f => (f, dur f)))
      (chapter_title_from_dir f0 rootName) (0 + dur f0)).symm

/-- Counterexample to C5 as stated: with the root directory named X and
entries a.mp3 (at the root, so its chapter title is the root name X) and
X/b.mp3 (in subdirectory X, title X), the containing directories of the
two ordered entries differ, yet the builder produces a single merged
chapter because it compares computed titles, not directories. -/
theorem claimC5_counterexample :
    build_chapters ([["a.mp3"], ["X", "b.mp3"]]) ("X") .dirMode (fun _ => 5)
      = [(0, 10, ("X"))]
    ∧ List.dropLast ([("a.mp3")] : List String)
        ≠ List.dropLast ([("X"), ("b.mp3")] : List String) := by
  refine ⟨by decide, by decide⟩

/-- Closed form of the per-file loop: chapter i spans from the sum of
the first i durations to the sum of the first i+1 durations, shifted by
the running start, and is titled with the stem of file i. -/
theorem fileLoop_eq_range : ∀ (l : List (BFile × ℤ)) (s : ℤ),
    fileLoop l s = (List.range l.length).map (fun i =>
      (s + ((l.take i).map (fun x => x.2)).sum,
       s + ((l.take (i + 1)).map (fun x => x.2)).sum,
       pyStem ((l.getD i (([], 0) : BFile × ℤ)).1.getLastD (""))))
  | [], s => by simp [fileLoop]
  | (f, d) :: rest, s => by
    simp only [fileLoop]
    rw [fileLoop_eq_range rest (s + d)]
    rw [List.length_cons, List.range_succ_eq_map, List.map_cons, List.map_map]
    congr 1
    · simp
    · apply List.map_congr_left
      intro i _
      simp [List.take_succ_cons, List.getD_cons_succ, List.sum_cons, add_assoc]

theorem getD_map_pair_fst (dur : BFile → ℤ) :
    ∀ (l : List BFile) (i : ℕ),
      ((l.map (fun f => (f, dur f))).getD i (([], 0) : BFile × ℤ)).1 = l.getD i []
  | [], i => by cases i <;> rfl
  | f :: rest, 0 => rfl
  | f :: rest, i + 1 => by
    simp only [List.map_cons, List.getD_cons_succ]
    exact getD_map_pair_fst dur rest i

/-- C9: in per-file chapter mode each ordered entry yields one chapter
spanning from the accumulated duration of the earlier entries to the
accumulated duration including itself, titled with the file base name
with the extension stripped, where each duration is the probed seconds
value converted to milliseconds by rounding; the concrete two-file root
with durations 30s and 90s yields chapters (0, 30000, 01 - Intro) and
(30000, 120000, 02 - Main). -/
theorem claimC9_per_file_chapters :
    (∀ (files : List BFile) (rootName : String) (sec : BFile → ℚ),
      build_chapters files rootName .fileMode (fun f => probe_duration_ms (sec f)) =
        (List.range files.length).map (fun i =>
          (((files.take i).map (fun f => probe_duration_ms (sec f))).sum,
           ((files.take (i + 1)).map (fun f => probe_duration_ms (sec f))).sum,
           pyStem ((files.getD i ([] : BFile)).getLastD ("")))))
    ∧ build_chapters ([["01 - Intro.mp3"], ["02 - Main.mp3"]]) ("r") .fileMode
        (fun f => probe_duration_ms (if f = [("01 - Intro.mp3")] then 30 else 90)) =
        [(0, 30000, ("01 - Intro")), (30000, 120000, ("02 - Main"))] := by
  constructor
  · intro files rootName sec
    simp only [build_chapters]
    rw [zip_map_self, fileLoop_eq_range, List.length_map]
    apply List.map_congr_left
    intro i _
    have h1 : ∀ j : ℕ,
        (((files.map (fun f => (f, probe_duration_ms (sec f)))).take j).map
          (fun x => x.2)).sum
        = ((files.take j).map (fun f => probe_duration_ms (sec f))).sum := by
      intro j
      rw [← List.map_take, List.map_map]
      rfl
    rw [h1 i, h1 (i + 1), getD_map_pair_fst]
    simp
  · have h30 : probe_duration_ms 30 = 30000 := by norm_num [probe_duration_ms, pyRound]
    have h90 : probe_duration_ms 90 = 90000 := by norm_num [probe_duration_ms, pyRound]
    simp [build_chapters, fileLoop, h30, h90]
    constructor
    · decide
    · decide
